import Mathlib

/-!
Verification development for the polygon-sketching application.

The definitions below are a shallow embedding of the TypeScript sources:
`Point.ts`, `Polygon.ts` and the `PolygonDrawingApp` class (two textual
variants exist in the repository; their method bodies differ only in
early-return style and keyboard bindings, so a single embedding covers
both).  Mutable fields of the app object become fields of an explicit
state record, and each event handler becomes a state-to-state function.
Coordinates are JavaScript numbers in the source; the modelled core only
copies and compares them, never computes with them, so they are embedded
as integers.
-/

namespace PolySketch

/-- Value model of `Point` (Point.ts): a pair of coordinates. -/
structure Point where
  x : Int
  y : Int
deriving DecidableEq, Repr

/-- Embedding of `Point.clone`: a fresh point with the same coordinates. -/
def Point.clone (p : Point) : Point := ⟨p.x, p.y⟩

/-- Value model of `Polygon` (Polygon.ts): an ordered vertex list plus the
`isFinished` flag. -/
structure Polygon where
  vertices : List Point
  isFinished : Bool
deriving DecidableEq, Repr

/-- Embedding of `Polygon.addVertex`: pushes a clone of the point. -/
def Polygon.addVertex (poly : Polygon) (p : Point) : Polygon :=
  { poly with vertices := poly.vertices ++ [p.clone] }

/-- Embedding of `Polygon.finish`: sets the `isFinished` flag. -/
def Polygon.finish (poly : Polygon) : Polygon :=
  { poly with isFinished := true }

/-- Embedding of `Polygon.clone`: clones every vertex and copies the flag. -/
def Polygon.clone (poly : Polygon) : Polygon :=
  ⟨poly.vertices.map Point.clone, poly.isFinished⟩

/-- One history entry of `PolygonDrawingApp.history`: the stored pair of
finished polygons and the polygon under construction (if any). -/
structure Snapshot where
  polygons : List Polygon
  currentPolygon : Option Polygon
deriving DecidableEq, Repr

/-- Mutable state of the `PolygonDrawingApp` object: the live session
fields together with the history fields. -/
structure AppState where
  polygons : List Polygon
  currentPolygon : Option Polygon
  previewPoint : Option Point
  history : List Snapshot
  historyIndex : Nat
  currentPolygonStartIndex : Nat
deriving DecidableEq, Repr

/-- State of a freshly constructed `PolygonDrawingApp`: one snapshot with
empty shapes and no in-progress polygon, index 0. -/
def initialState : AppState :=
  { polygons := []
    currentPolygon := none
    previewPoint := none
    history := [⟨[], none⟩]
    historyIndex := 0
    currentPolygonStartIndex := 0 }

/-- Embedding of `saveToHistory`: truncate any future history, push a deep
clone of the live session pair, advance the index. -/
def saveToHistory (s : AppState) : AppState :=
  let truncated := s.history.take (s.historyIndex + 1)
  let state : Snapshot :=
    ⟨s.polygons.map Polygon.clone, s.currentPolygon.map Polygon.clone⟩
  { s with history := truncated ++ [state], historyIndex := s.historyIndex + 1 }

/-- Embedding of `handleClick`: if no polygon is open, open one and record
the current history index as its start; then add the vertex and save. -/
def handleClick (p : Point) (s : AppState) : AppState :=
  let started : Polygon × Nat :=
    match s.currentPolygon with
    | none => (⟨[], false⟩, s.historyIndex)
    | some c => (c, s.currentPolygonStartIndex)
  saveToHistory
    { s with currentPolygon := some (started.1.addVertex p)
             currentPolygonStartIndex := started.2 }

/-- Embedding of `handleDoubleClick`: when an open polygon has at least 3
vertices, finish it, append it to the finished list, truncate the history
back to the recorded start index, reset the index there, drop the open
polygon and the preview, and save the final state.  Otherwise a no-op. -/
def handleDoubleClick (s : AppState) : AppState :=
  match s.currentPolygon with
  | some c =>
    if 3 ≤ c.vertices.length then
      saveToHistory
        { s with polygons := s.polygons ++ [c.finish]
                 history := s.history.take (s.currentPolygonStartIndex + 1)
                 historyIndex := s.currentPolygonStartIndex
                 currentPolygon := none
                 previewPoint := none }
    else s
  | none => s

/-- Embedding of `handleMouseMove`: sets the ephemeral preview point while
a nonempty polygon is under construction; otherwise a no-op. -/
def handleMouseMove (p : Point) (s : AppState) : AppState :=
  match s.currentPolygon with
  | some c => if 0 < c.vertices.length then { s with previewPoint := some p } else s
  | none => s

/-- Embedding of `undo`.  When the decremented index is inside the
timeline the stored snapshot is cloned back into the live state and the
preview is dropped.  When it is not, the JavaScript original dereferences
`undefined` and the handler aborts by exception right after the index
decrement, so only the decrement takes effect. -/
def undo (s : AppState) : AppState :=
  if 0 < s.historyIndex then
    match s.history[s.historyIndex - 1]? with
    | some st =>
      { s with historyIndex := s.historyIndex - 1
               polygons := st.polygons.map Polygon.clone
               currentPolygon := st.currentPolygon.map Polygon.clone
               previewPoint := none }
    | none => { s with historyIndex := s.historyIndex - 1 }
  else s

/-- Embedding of `redo`, symmetric to `undo`; its guard keeps the
incremented index inside the timeline, so the aborting branch of the
match is unreachable. -/
def redo (s : AppState) : AppState :=
  if s.historyIndex < s.history.length - 1 then
    match s.history[s.historyIndex + 1]? with
    | some st =>
      { s with historyIndex := s.historyIndex + 1
               polygons := st.polygons.map Polygon.clone
               currentPolygon := st.currentPolygon.map Polygon.clone
               previewPoint := none }
    | none => { s with historyIndex := s.historyIndex + 1 }
  else s

/-- Embedding of `clear`: empty the finished list, drop the open polygon
and the preview, and save. -/
def clear (s : AppState) : AppState :=
  saveToHistory
    { s with polygons := [], currentPolygon := none, previewPoint := none }

/-- Embedding of the undo-button enablement (`updateUI`): the button is
disabled exactly when `historyIndex <= 0`. -/
def canUndo (s : AppState) : Bool :=
  decide (0 < s.historyIndex)

/-- Embedding of the redo-button enablement (`updateUI`). -/
def canRedo (s : AppState) : Bool :=
  decide (s.historyIndex < s.history.length - 1)

/-- Discrete user events delivered by the input source. -/
inductive Event where
  | click (p : Point)
  | dblclick
  | mousemove (p : Point)
  | undoReq
  | redoReq
  | clearReq
deriving DecidableEq, Repr

/-- Dispatch of one event to its handler. -/
def step (e : Event) (s : AppState) : AppState :=
  match e with
  | .click p => handleClick p s
  | .dblclick => handleDoubleClick s
  | .mousemove p => handleMouseMove p s
  | .undoReq => undo s
  | .redoReq => redo s
  | .clearReq => clear s

/-- Processing of an event list starting from a given state. -/
def runFrom (s : AppState) (es : List Event) : AppState :=
  es.foldl (fun t e => step e t) s

/-- Processing of an event list from app construction. -/
def run (es : List Event) : AppState :=
  runFrom initialState es

/-- A state is reachable when some event sequence produces it from the
freshly constructed app. -/
def Reachable (s : AppState) : Prop :=
  ∃ es : List Event, run es = s

/-- Cloning a point is the identity on the value model. -/
theorem point_clone_id (p : Point) : p.clone = p := rfl

/-- Cloning points is the identity function on the value model. -/
theorem point_clone_fun : Point.clone = id :=
  funext fun _ => rfl

/-- Cloning a polygon is the identity on the value model. -/
theorem polygon_clone_id (poly : Polygon) : poly.clone = poly := by
  cases poly with
  | mk v f => simp [Polygon.clone, point_clone_fun]

/-- Cloning polygons is the identity function on the value model. -/
theorem polygon_clone_fun : Polygon.clone = id :=
  funext polygon_clone_id

/-- Mapping the polygon clone over a list is the identity. -/
theorem map_clone_eq (l : List Polygon) : l.map Polygon.clone = l := by
  simp [polygon_clone_fun]

/-- Mapping the polygon clone over an optional polygon is the identity. -/
theorem option_map_clone_eq (o : Option Polygon) :
    o.map Polygon.clone = o := by
  cases o <;> simp [polygon_clone_id]

/-- Unfolding of `saveToHistory` with the clone identities applied. -/
theorem saveToHistory_eq (s : AppState) :
    saveToHistory s =
      { s with history := s.history.take (s.historyIndex + 1) ++
                 [⟨s.polygons, s.currentPolygon⟩]
               historyIndex := s.historyIndex + 1 } := by
  simp [saveToHistory, map_clone_eq, option_map_clone_eq]

/-- Processing the empty event list is the identity. -/
theorem runFrom_nil (s : AppState) : runFrom s [] = s := rfl

/-- Processing an event list one event at a time. -/
theorem runFrom_cons (s : AppState) (e : Event) (es : List Event) :
    runFrom s (e :: es) = runFrom (step e s) es := rfl

/-- Processing a concatenation of event lists in two stages. -/
theorem runFrom_append (s : AppState) (l1 l2 : List Event) :
    runFrom s (l1 ++ l2) = runFrom (runFrom s l1) l2 := by
  simp [runFrom]

/-- Well-formedness of one stored (or live) session pair: every finished
polygon carries the flag and has at least 3 vertices, and an in-progress
polygon is unfinished. -/
def EntryOK (e : Snapshot) : Prop :=
  (∀ poly ∈ e.polygons, poly.isFinished = true ∧ 3 ≤ poly.vertices.length) ∧
  (∀ c, e.currentPolygon = some c → c.isFinished = false)

/-- Inductive invariant of the application state.  The timeline is never
empty and begins with the empty snapshot; whenever the index is inside
the timeline, the indexed snapshot equals the live session pair; live and
stored pairs are well formed; a preview can only exist above index 0, and
at index 0 no polygon is open. -/
def Inv (s : AppState) : Prop :=
  1 ≤ s.history.length ∧
  (s.historyIndex < s.history.length →
    s.history[s.historyIndex]? = some ⟨s.polygons, s.currentPolygon⟩) ∧
  s.history[0]? = some ⟨[], none⟩ ∧
  EntryOK ⟨s.polygons, s.currentPolygon⟩ ∧
  (∀ e ∈ s.history, EntryOK e) ∧
  (s.previewPoint ≠ none → 1 ≤ s.historyIndex) ∧
  (s.historyIndex = 0 → s.currentPolygon = none)

/-- Saving preserves the invariant; only the parts of the invariant that
do not mention the position of the index are needed of the input. -/
theorem inv_saveToHistory (s : AppState)
    (h1 : 1 ≤ s.history.length)
    (h3 : s.history[0]? = some ⟨[], none⟩)
    (h4 : EntryOK ⟨s.polygons, s.currentPolygon⟩)
    (h5 : ∀ e ∈ s.history, EntryOK e) :
    Inv (saveToHistory s) := by
  rw [saveToHistory_eq]
  have hAlen : (s.history.take (s.historyIndex + 1)).length =
      min (s.historyIndex + 1) s.history.length := List.length_take _ _
  refine ⟨?_, ?_, ?_, h4, ?_, ?_, ?_⟩
  · show 1 ≤ (s.history.take (s.historyIndex + 1) ++
      [(⟨s.polygons, s.currentPolygon⟩ : Snapshot)]).length
    simp
  · intro hlt
    show (s.history.take (s.historyIndex + 1) ++
        [(⟨s.polygons, s.currentPolygon⟩ : Snapshot)])[s.historyIndex + 1]? =
      some ⟨s.polygons, s.currentPolygon⟩
    have hlt2 : s.historyIndex + 1 <
        (s.history.take (s.historyIndex + 1) ++
          [(⟨s.polygons, s.currentPolygon⟩ : Snapshot)]).length := hlt
    simp only [List.length_append, List.length_cons, List.length_nil] at hlt2
    have hle : (s.history.take (s.historyIndex + 1)).length =
        s.historyIndex + 1 := by omega
    rw [List.getElem?_append_right (by omega)]
    simp [hle]
  · show (s.history.take (s.historyIndex + 1) ++
        [(⟨s.polygons, s.currentPolygon⟩ : Snapshot)])[0]? =
      some ⟨[], none⟩
    have hApos : 0 < (s.history.take (s.historyIndex + 1)).length := by omega
    rw [List.getElem?_append_left hApos,
        List.getElem?_take_of_lt (by omega : (0 : Nat) < s.historyIndex + 1)]
    exact h3
  · intro e he
    have he2 : e ∈ s.history.take (s.historyIndex + 1) ++
        [(⟨s.polygons, s.currentPolygon⟩ : Snapshot)] := he
    rcases List.mem_append.1 he2 with hmem | hmem
    · exact h5 e (List.take_subset _ _ hmem)
    · simp only [List.mem_singleton] at hmem
      subst hmem
      exact h4
  · intro _
    show 1 ≤ s.historyIndex + 1
    omega
  · intro h
    exact absurd h (Nat.succ_ne_zero _)

/-- A click preserves the invariant. -/
theorem inv_handleClick (p : Point) (s : AppState) (hs : Inv s) :
    Inv (handleClick p s) := by
  obtain ⟨h1, h2, h3, h4, h5, h6, h7⟩ := hs
  cases hc : s.currentPolygon with
  | none =>
    have heq : handleClick p s =
        saveToHistory
          { s with currentPolygon := some (Polygon.addVertex ⟨[], false⟩ p)
                   currentPolygonStartIndex := s.historyIndex } := by
      simp [handleClick, hc]
    rw [heq]
    exact inv_saveToHistory _ h1 h3
      ⟨h4.1, fun c hcc => by
        simp only [Option.some.injEq] at hcc
        simp [← hcc, Polygon.addVertex]⟩ h5
  | some c =>
    have heq : handleClick p s =
        saveToHistory { s with currentPolygon := some (c.addVertex p) } := by
      simp [handleClick, hc]
    rw [heq]
    exact inv_saveToHistory _ h1 h3
      ⟨h4.1, fun c2 hcc => by
        simp only [Option.some.injEq] at hcc
        simp [← hcc, Polygon.addVertex, h4.2 c hc]⟩ h5

/-- A double click preserves the invariant. -/
theorem inv_handleDoubleClick (s : AppState) (hs : Inv s) :
    Inv (handleDoubleClick s) := by
  cases hc : s.currentPolygon with
  | none =>
    have heq : handleDoubleClick s = s := by simp [handleDoubleClick, hc]
    rw [heq]
    exact hs
  | some c =>
    by_cases hlen : 3 ≤ c.vertices.length
    · obtain ⟨h1, h2, h3, h4, h5, h6, h7⟩ := hs
      have heq : handleDoubleClick s =
          saveToHistory
            { s with polygons := s.polygons ++ [c.finish]
                     history := s.history.take (s.currentPolygonStartIndex + 1)
                     historyIndex := s.currentPolygonStartIndex
                     currentPolygon := none
                     previewPoint := none } := by
        simp [handleDoubleClick, hc, hlen]
      rw [heq]
      refine inv_saveToHistory _ ?_ ?_ ?_ ?_
      · show 1 ≤ (s.history.take (s.currentPolygonStartIndex + 1)).length
        rw [List.length_take]
        omega
      · show (s.history.take (s.currentPolygonStartIndex + 1))[0]? =
          some ⟨[], none⟩
        rw [List.getElem?_take_of_lt
          (by omega : (0 : Nat) < s.currentPolygonStartIndex + 1)]
        exact h3
      · refine ⟨?_, by simp⟩
        intro poly hmem
        have hmem2 : poly ∈ s.polygons ++ [c.finish] := hmem
        rcases List.mem_append.1 hmem2 with hmem3 | hmem3
        · exact h4.1 poly hmem3
        · simp only [List.mem_singleton] at hmem3
          subst hmem3
          exact ⟨rfl, hlen⟩
      · intro e he
        exact h5 e (List.take_subset _ _ he)
    · have heq : handleDoubleClick s = s := by simp [handleDoubleClick, hc, hlen]
      rw [heq]
      exact hs

/-- A pointer move preserves the invariant. -/
theorem inv_handleMouseMove (p : Point) (s : AppState) (hs : Inv s) :
    Inv (handleMouseMove p s) := by
  cases hc : s.currentPolygon with
  | none =>
    have heq : handleMouseMove p s = s := by simp [handleMouseMove, hc]
    rw [heq]
    exact hs
  | some c =>
    by_cases h0 : 0 < c.vertices.length
    · obtain ⟨h1, h2, h3, h4, h5, h6, h7⟩ := hs
      have hi : s.historyIndex ≠ 0 := by
        intro hzero
        rw [h7 hzero] at hc
        exact Option.noConfusion hc
      have heq : handleMouseMove p s = { s with previewPoint := some p } := by
        simp [handleMouseMove, hc, h0]
      rw [heq]
      refine ⟨h1, h2, h3, h4, h5, fun _ => ?_, fun hzero => absurd hzero hi⟩
      show 1 ≤ s.historyIndex
      omega
    · have heq : handleMouseMove p s = s := by simp [handleMouseMove, hc, h0]
      rw [heq]
      exact hs

/-- An undo request preserves the invariant. -/
theorem inv_undo (s : AppState) (hs : Inv s) : Inv (undo s) := by
  by_cases hi : 0 < s.historyIndex
  · obtain ⟨h1, h2, h3, h4, h5, h6, h7⟩ := hs
    cases hst : s.history[s.historyIndex - 1]? with
    | some st =>
      have heq : undo s =
          { s with historyIndex := s.historyIndex - 1
                   polygons := st.polygons
                   currentPolygon := st.currentPolygon
                   previewPoint := none } := by
        simp [undo, hi, hst, map_clone_eq, option_map_clone_eq]
      rw [heq]
      refine ⟨h1, ?_, h3, ?_, h5, by simp, ?_⟩
      · intro _
        show s.history[s.historyIndex - 1]? =
          some ⟨st.polygons, st.currentPolygon⟩
        rw [hst]
      · exact h5 st (List.getElem?_mem hst)
      · intro hzero
        have hz : s.historyIndex - 1 = 0 := hzero
        rw [hz, h3] at hst
        cases hst
        rfl
    | none =>
      have hoob : s.history.length ≤ s.historyIndex - 1 :=
        List.getElem?_eq_none_iff.1 hst
      have heq : undo s = { s with historyIndex := s.historyIndex - 1 } := by
        simp [undo, hi, hst]
      rw [heq]
      refine ⟨h1, fun hlt => ?_, h3, h4, h5, fun _ => ?_, fun hzero => ?_⟩
      · exact absurd (show s.historyIndex - 1 < s.history.length from hlt)
          (by omega)
      · show 1 ≤ s.historyIndex - 1
        omega
      · exact absurd (show s.historyIndex - 1 = 0 from hzero) (by omega)
  · have heq : undo s = s := by simp [undo, hi]
    rw [heq]
    exact hs

/-- A redo request preserves the invariant. -/
theorem inv_redo (s : AppState) (hs : Inv s) : Inv (redo s) := by
  by_cases hi : s.historyIndex < s.history.length - 1
  · obtain ⟨h1, h2, h3, h4, h5, h6, h7⟩ := hs
    have hlt : s.historyIndex + 1 < s.history.length := by omega
    have hst : s.history[s.historyIndex + 1]? =
        some (s.history[s.historyIndex + 1]) := List.getElem?_eq_getElem hlt
    have heq : redo s =
        { s with historyIndex := s.historyIndex + 1
                 polygons := (s.history[s.historyIndex + 1]).polygons
                 currentPolygon := (s.history[s.historyIndex + 1]).currentPolygon
                 previewPoint := none } := by
      simp [redo, hi, hst, map_clone_eq, option_map_clone_eq]
    rw [heq]
    refine ⟨h1, ?_, h3, ?_, h5, by simp, ?_⟩
    · intro _
      show s.history[s.historyIndex + 1]? =
        some ⟨(s.history[s.historyIndex + 1]).polygons,
              (s.history[s.historyIndex + 1]).currentPolygon⟩
      rw [hst]
    · exact h5 _ (List.getElem?_mem hst)
    · intro hzero
      exact absurd (show s.historyIndex + 1 = 0 from hzero)
        (Nat.succ_ne_zero _)
  · have heq : redo s = s := by simp [redo, hi]
    rw [heq]
    exact hs

/-- A clear request preserves the invariant. -/
theorem inv_clear (s : AppState) (hs : Inv s) : Inv (clear s) := by
  obtain ⟨h1, h2, h3, h4, h5, h6, h7⟩ := hs
  exact inv_saveToHistory _ h1 h3 ⟨by simp, by simp⟩ h5

/-- Every event handler preserves the invariant. -/
theorem inv_step (e : Event) (s : AppState) (hs : Inv s) : Inv (step e s) := by
  cases e with
  | click p => exact inv_handleClick p s hs
  | dblclick => exact inv_handleDoubleClick s hs
  | mousemove p => exact inv_handleMouseMove p s hs
  | undoReq => exact inv_undo s hs
  | redoReq => exact inv_redo s hs
  | clearReq => exact inv_clear s hs

/-- Processing any event list preserves the invariant. -/
theorem inv_runFrom (es : List Event) :
    ∀ s : AppState, Inv s → Inv (runFrom s es) := by
  induction es with
  | nil => intro s hs; exact hs
  | cons e rest ih =>
    intro s hs
    rw [runFrom_cons]
    exact ih _ (inv_step e s hs)

/-- The freshly constructed app satisfies the invariant. -/
theorem inv_initial : Inv initialState := by
  refine ⟨by simp [initialState], ?_, by simp [initialState], ?_, ?_, ?_, ?_⟩
  · intro _
    simp [initialState]
  · exact ⟨by simp [initialState], by simp [initialState]⟩
  · intro e he
    simp only [initialState, List.mem_singleton] at he
    subst he
    exact ⟨by simp, by simp⟩
  · intro h
    exact absurd rfl h
  · intro _
    rfl

/-- Every reachable state satisfies the invariant. -/
theorem reachable_inv (s : AppState) (hs : Reachable s) : Inv s := by
  obtain ⟨es, rfl⟩ := hs
  exact inv_runFrom es initialState inv_initial

/-- Folding vertex additions appends the added points in order. -/
theorem foldl_addVertex (qs : List Point) :
    ∀ c : Polygon, qs.foldl Polygon.addVertex c =
      ⟨c.vertices ++ qs, c.isFinished⟩ := by
  induction qs with
  | nil => intro c; cases c; simp
  | cons q rest ih =>
    intro c
    rw [List.foldl_cons, ih]
    simp [Polygon.addVertex, point_clone_id]

/-- Snapshots recorded while clicking the points of `qs` onto the open
polygon `c`, with `pg` the unchanged finished list. -/
def snapTrail (pg : List Polygon) (c : Polygon) (qs : List Point) :
    List Snapshot :=
  match qs with
  | [] => []
  | q :: rest => ⟨pg, some (c.addVertex q)⟩ :: snapTrail pg (c.addVertex q) rest

/-- The trail records one snapshot per clicked point. -/
theorem snapTrail_length (qs : List Point) :
    ∀ (pg : List Polygon) (c : Polygon), (snapTrail pg c qs).length = qs.length := by
  induction qs with
  | nil => intro pg c; rfl
  | cons q rest ih => intro pg c; simp [snapTrail, ih]

/-- A click while a polygon is open and the index sits at the end of the
timeline: the timeline just grows by the new snapshot. -/
theorem handleClick_building (s : AppState) (c : Polygon) (q : Point)
    (hc : s.currentPolygon = some c)
    (hlen : s.history.length = s.historyIndex + 1) :
    handleClick q s =
      { s with currentPolygon := some (c.addVertex q)
               history := s.history ++ [⟨s.polygons, some (c.addVertex q)⟩]
               historyIndex := s.historyIndex + 1 } := by
  obtain ⟨pg, cp, pv, h, i, st⟩ := s
  simp only at hc hlen
  subst hc
  simp [handleClick, saveToHistory_eq, List.take_of_length_le (le_of_eq hlen)]

/-- Clicking a list of points while a polygon is open and the index sits
at the end of the timeline. -/
theorem runFrom_clicks_building (qs : List Point) :
    ∀ (s : AppState) (c : Polygon),
      s.currentPolygon = some c → s.history.length = s.historyIndex + 1 →
      runFrom s (qs.map Event.click) =
        { s with currentPolygon := some (qs.foldl Polygon.addVertex c)
                 history := s.history ++ snapTrail s.polygons c qs
                 historyIndex := s.historyIndex + qs.length } := by
  induction qs with
  | nil =>
    intro s c hc hlen
    obtain ⟨pg, cp, pv, h, i, st⟩ := s
    simp only at hc
    subst hc
    simp [runFrom, snapTrail]
  | cons q rest ih =>
    intro s c hc hlen
    rw [List.map_cons, runFrom_cons]
    show runFrom (handleClick q s) (rest.map Event.click) = _
    rw [handleClick_building s c q hc hlen]
    rw [ih _ (c.addVertex q) rfl (by simp [hlen])]
    obtain ⟨pg, cp, pv, h, i, st⟩ := s
    simp [snapTrail, AppState.mk.injEq]
    omega

/-- A click while no polygon is open: a fresh polygon starts, its start
index is recorded, and the snapshot is pushed after truncation. -/
theorem handleClick_fresh (s : AppState) (q : Point)
    (hc : s.currentPolygon = none) :
    handleClick q s =
      { s with currentPolygon := some ⟨[q], false⟩
               currentPolygonStartIndex := s.historyIndex
               history := s.history.take (s.historyIndex + 1) ++
                 [⟨s.polygons, some ⟨[q], false⟩⟩]
               historyIndex := s.historyIndex + 1 } := by
  obtain ⟨pg, cp, pv, h, i, st⟩ := s
  simp only at hc
  subst hc
  simp [handleClick, saveToHistory_eq, Polygon.addVertex, point_clone_id]

/-- Clicking a nonempty list of points from a state with no open polygon
and an in-range index: the whole construction trail is appended after the
truncated prefix, and the start index is recorded. -/
theorem runFrom_clicks_fresh (s : AppState) (q : Point) (qs : List Point)
    (hc : s.currentPolygon = none)
    (hb : s.historyIndex < s.history.length) :
    runFrom s ((q :: qs).map Event.click) =
      { s with currentPolygon := some ⟨q :: qs, false⟩
               currentPolygonStartIndex := s.historyIndex
               history := s.history.take (s.historyIndex + 1) ++
                 (⟨s.polygons, some ⟨[q], false⟩⟩ ::
                   snapTrail s.polygons ⟨[q], false⟩ qs)
               historyIndex := s.historyIndex + 1 + qs.length } := by
  rw [List.map_cons, runFrom_cons]
  show runFrom (handleClick q s) (qs.map Event.click) = _
  rw [handleClick_fresh s q hc]
  rw [runFrom_clicks_building qs _ ⟨[q], false⟩ rfl
    (by simp [List.length_take]; omega)]
  rw [foldl_addVertex]
  obtain ⟨pg, cp, pv, h, i, st⟩ := s
  simp [AppState.mk.injEq, List.append_assoc]

/-- Undo when the decremented index addresses a stored snapshot. -/
theorem undo_inBounds (s : AppState) (st : Snapshot)
    (hi : 0 < s.historyIndex)
    (hst : s.history[s.historyIndex - 1]? = some st) :
    undo s =
      { s with historyIndex := s.historyIndex - 1
               polygons := st.polygons
               currentPolygon := st.currentPolygon
               previewPoint := none } := by
  simp [undo, hi, hst, map_clone_eq, option_map_clone_eq]

/-- Undo when the decremented index addresses no stored snapshot: in the
original the handler aborts by exception right after the decrement. -/
theorem undo_outOfBounds (s : AppState)
    (hi : 0 < s.historyIndex)
    (hst : s.history[s.historyIndex - 1]? = none) :
    undo s = { s with historyIndex := s.historyIndex - 1 } := by
  simp [undo, hi, hst]

/-- Repeating an event that fixes a state keeps fixing it. -/
theorem runFrom_replicate_fix (t : AppState) (e : Event)
    (hfix : step e t = t) : ∀ m : Nat, runFrom t (List.replicate m e) = t := by
  intro m
  induction m with
  | zero => rfl
  | succ m ih =>
    rw [List.replicate_succ, runFrom_cons, hfix]
    exact ih

/-- Iterated undo inside the timeline: the timeline is untouched, the
index drops by the number of undos, and the live session pair equals the
snapshot now indexed. -/
theorem runFrom_undos (k : Nat) :
    ∀ s : AppState, Inv s → k ≤ s.historyIndex →
      s.historyIndex < s.history.length →
      (runFrom s (List.replicate k Event.undoReq)).history = s.history ∧
      (runFrom s (List.replicate k Event.undoReq)).historyIndex =
        s.historyIndex - k ∧
      s.history[s.historyIndex - k]? =
        some ⟨(runFrom s (List.replicate k Event.undoReq)).polygons,
              (runFrom s (List.replicate k Event.undoReq)).currentPolygon⟩ := by
  induction k with
  | zero =>
    intro s hs hk hb
    exact ⟨rfl, rfl, hs.2.1 hb⟩
  | succ k ih =>
    intro s hs hk hb
    have hi : 0 < s.historyIndex := by omega
    have hlt : s.historyIndex - 1 < s.history.length := by omega
    obtain ⟨st, hst⟩ : ∃ st, s.history[s.historyIndex - 1]? = some st :=
      ⟨_, List.getElem?_eq_getElem hlt⟩
    have heq := undo_inBounds s st hi hst
    have hinv2 : Inv (undo s) := inv_undo s hs
    rw [heq] at hinv2
    rw [List.replicate_succ, runFrom_cons,
        show step Event.undoReq s = undo s from rfl, heq]
    obtain ⟨ihh, ihi, ihs⟩ := ih _ hinv2
      (by show k ≤ s.historyIndex - 1; omega)
      (by show s.historyIndex - 1 < s.history.length; omega)
    have harith : s.historyIndex - 1 - k = s.historyIndex - (k + 1) := by
      omega
    refine ⟨ihh, ?_, ?_⟩
    · rw [ihi]
      show s.historyIndex - 1 - k = s.historyIndex - (k + 1)
      omega
    · rw [← harith]
      exact ihs

/-- Iterated redo inside the timeline, symmetric to iterated undo. -/
theorem runFrom_redos (k : Nat) :
    ∀ s : AppState, Inv s → s.historyIndex + k < s.history.length →
      (runFrom s (List.replicate k Event.redoReq)).history = s.history ∧
      (runFrom s (List.replicate k Event.redoReq)).historyIndex =
        s.historyIndex + k ∧
      s.history[s.historyIndex + k]? =
        some ⟨(runFrom s (List.replicate k Event.redoReq)).polygons,
              (runFrom s (List.replicate k Event.redoReq)).currentPolygon⟩ := by
  induction k with
  | zero =>
    intro s hs hb
    exact ⟨rfl, rfl, hs.2.1 (by omega)⟩
  | succ k ih =>
    intro s hs hb
    have h1 : 1 ≤ s.history.length := hs.1
    have hi : s.historyIndex < s.history.length - 1 := by omega
    have hlt : s.historyIndex + 1 < s.history.length := by omega
    have hst : s.history[s.historyIndex + 1]? =
        some (s.history[s.historyIndex + 1]) := List.getElem?_eq_getElem hlt
    have heq : redo s =
        { s with historyIndex := s.historyIndex + 1
                 polygons := (s.history[s.historyIndex + 1]).polygons
                 currentPolygon := (s.history[s.historyIndex + 1]).currentPolygon
                 previewPoint := none } := by
      simp [redo, hi, hst, map_clone_eq, option_map_clone_eq]
    have hinv2 : Inv (redo s) := inv_redo s hs
    rw [heq] at hinv2
    rw [List.replicate_succ, runFrom_cons,
        show step Event.redoReq s = redo s from rfl, heq]
    obtain ⟨ihh, ihi, ihs⟩ := ih _ hinv2
      (by show s.historyIndex + 1 + k < s.history.length; omega)
    have harith : s.historyIndex + 1 + k = s.historyIndex + (k + 1) := by
      omega
    refine ⟨ihh, ?_, ?_⟩
    · rw [ihi]
      show s.historyIndex + 1 + k = s.historyIndex + (k + 1)
      omega
    · rw [← harith]
      exact ihs

/-- The push performed by a click: the timeline becomes the truncated
prefix plus one snapshot, whatever the branch taken on the open polygon. -/
theorem handleClick_history_ex (p : Point) (s : AppState) :
    ∃ e : Snapshot, (handleClick p s).history =
      s.history.take (s.historyIndex + 1) ++ [e] := by
  cases hc : s.currentPolygon with
  | none =>
    rw [handleClick_fresh s p hc]
    exact ⟨_, rfl⟩
  | some c =>
    refine ⟨⟨s.polygons, some (c.addVertex p)⟩, ?_⟩
    simp [handleClick, hc, saveToHistory_eq]

/-- Saving keeps the index strictly inside the timeline. -/
theorem saveToHistory_bound (s : AppState)
    (hb : s.historyIndex < s.history.length) :
    (saveToHistory s).historyIndex < (saveToHistory s).history.length := by
  rw [saveToHistory_eq]
  show s.historyIndex + 1 <
    (s.history.take (s.historyIndex + 1) ++
      [(⟨s.polygons, s.currentPolygon⟩ : Snapshot)]).length
  simp [List.length_take]
  omega

/-- An event sequence used in several counterexamples: it builds a
three-vertex polygon, clears twice, starts a second polygon (recording
start index 5), undoes back into the middle of the first construction,
clears, undoes again, and finishes.  The recorded start index is stale at
the finish, so the consolidation truncation cuts nothing and the final
save pushes the index to the timeline length. -/
def badTrace : List Event :=
  [Event.click ⟨0, 0⟩, Event.click ⟨1, 0⟩, Event.click ⟨0, 1⟩,
   Event.clearReq, Event.clearReq, Event.click ⟨5, 5⟩,
   Event.undoReq, Event.undoReq, Event.undoReq,
   Event.clearReq, Event.undoReq, Event.dblclick]

/-- Continuation of `badTrace` that draws and finishes a fresh triangle
from the corrupted idle state. -/
def c1Trace : List Event :=
  badTrace ++ [Event.click ⟨7, 7⟩, Event.click ⟨8, 7⟩, Event.click ⟨7, 8⟩,
    Event.dblclick]

/-- Claim C3 (confirmed): pushing while the index is not at the last
timeline position truncates everything after the index, so the timeline
length becomes index + 2, the index becomes index + 1, and no amount of
redo requests changes the state at all afterwards — the discarded
snapshots are unreachable. -/
theorem C3_linear_truncation (s : AppState)
    (hb : s.historyIndex + 2 ≤ s.history.length) :
    (saveToHistory s).history.length = s.historyIndex + 2 ∧
    (saveToHistory s).historyIndex = s.historyIndex + 1 ∧
    (saveToHistory s).history =
      s.history.take (s.historyIndex + 1) ++ [⟨s.polygons, s.currentPolygon⟩] ∧
    ∀ m : Nat, runFrom (saveToHistory s) (List.replicate m Event.redoReq) =
      saveToHistory s := by
  have hlen : (saveToHistory s).history.length = s.historyIndex + 2 := by
    rw [saveToHistory_eq]
    show (s.history.take (s.historyIndex + 1) ++
      [(⟨s.polygons, s.currentPolygon⟩ : Snapshot)]).length = s.historyIndex + 2
    simp [List.length_take]
    omega
  refine ⟨hlen, rfl, by rw [saveToHistory_eq], ?_⟩
  have hfix : step Event.redoReq (saveToHistory s) = saveToHistory s := by
    show redo _ = _
    have hno : ¬ ((saveToHistory s).historyIndex <
        (saveToHistory s).history.length - 1) := by
      rw [hlen]
      show ¬ (s.historyIndex + 1 < s.historyIndex + 2 - 1)
      omega
    simp [redo, hno]
  exact runFrom_replicate_fix _ _ hfix

/-- Witness for claim C3 at the state reached by one click and one undo. -/
theorem C3_witness :
    (run [Event.click ⟨0, 0⟩, Event.undoReq]).historyIndex + 2 ≤
      (run [Event.click ⟨0, 0⟩, Event.undoReq]).history.length ∧
    (saveToHistory (run [Event.click ⟨0, 0⟩, Event.undoReq])).history.length =
      (run [Event.click ⟨0, 0⟩, Event.undoReq]).historyIndex + 2 :=
  ⟨by decide, (C3_linear_truncation _ (by decide)).1⟩

/-- Claim C5 (confirmed): after any push, a later click — which mutates
the live in-progress polygon by adding a vertex — only appends to the
timeline; every snapshot stored at the time of the push, in particular
the pushed one, is left unchanged at its index. -/
theorem C5_snapshot_isolation (s : AppState) (p : Point) :
    (∃ e : Snapshot, (handleClick p (saveToHistory s)).history =
      (saveToHistory s).history ++ [e]) ∧
    (∀ j : Nat, j < (saveToHistory s).history.length →
      (handleClick p (saveToHistory s)).history[j]? =
        (saveToHistory s).history[j]?) := by
  have hlen : (saveToHistory s).history.length ≤
      (saveToHistory s).historyIndex + 1 := by
    rw [saveToHistory_eq]
    show (s.history.take (s.historyIndex + 1) ++
      [(⟨s.polygons, s.currentPolygon⟩ : Snapshot)]).length ≤ s.historyIndex + 2
    simp [List.length_take]
  obtain ⟨e, he⟩ := handleClick_history_ex p (saveToHistory s)
  rw [List.take_of_length_le hlen] at he
  refine ⟨⟨e, he⟩, ?_⟩
  intro j hj
  rw [he, List.getElem?_append_left hj]

/-- Claim C7 (confirmed): in every reachable state, every polygon of the
finished list is flagged finished and has at least 3 vertices, and the
in-progress polygon, when present, is unfinished. -/
theorem C7_session_invariant (s : AppState) (hreach : Reachable s) :
    (∀ poly ∈ s.polygons, poly.isFinished = true ∧ 3 ≤ poly.vertices.length) ∧
    (∀ c : Polygon, s.currentPolygon = some c → c.isFinished = false) :=
  (reachable_inv s hreach).2.2.2.1

/-- Witness for claim C7 at a reachable state with one finished polygon. -/
theorem C7_witness :
    Reachable (run [Event.click ⟨0, 0⟩, Event.click ⟨4, 0⟩,
      Event.click ⟨0, 4⟩, Event.dblclick]) ∧
    (∀ poly ∈ (run [Event.click ⟨0, 0⟩, Event.click ⟨4, 0⟩,
        Event.click ⟨0, 4⟩, Event.dblclick]).polygons,
      poly.isFinished = true ∧ 3 ≤ poly.vertices.length) :=
  ⟨⟨_, rfl⟩, (C7_session_invariant _ ⟨_, rfl⟩).1⟩

/-- Claim C8 (confirmed): a secondary action while the open polygon has
fewer than 3 vertices changes nothing at all — vertices, flags, finished
list, timeline and index are all exactly as before. -/
theorem C8_finish_guard (s : AppState) (c : Polygon)
    (hc : s.currentPolygon = some c) (hlen : c.vertices.length < 3) :
    handleDoubleClick s = s := by
  have hno : ¬ 3 ≤ c.vertices.length := by omega
  simp [handleDoubleClick, hc, hno]

/-- Witness for claim C8 at a state with a two-vertex open polygon. -/
theorem C8_witness :
    (run [Event.click ⟨0, 0⟩, Event.click ⟨1, 1⟩]).currentPolygon =
      some (⟨[⟨0, 0⟩, ⟨1, 1⟩], false⟩ : Polygon) ∧
    (⟨[⟨0, 0⟩, ⟨1, 1⟩], false⟩ : Polygon).vertices.length < 3 ∧
    handleDoubleClick (run [Event.click ⟨0, 0⟩, Event.click ⟨1, 1⟩]) =
      run [Event.click ⟨0, 0⟩, Event.click ⟨1, 1⟩] :=
  ⟨by decide, by decide,
   C8_finish_guard (run [Event.click ⟨0, 0⟩, Event.click ⟨1, 1⟩])
     ⟨[⟨0, 0⟩, ⟨1, 1⟩], false⟩ (by decide) (by decide)⟩

/-- Claim C2 counterexample: a redo request arriving at the newest-snapshot
boundary is a complete no-op, so a preview point set just before survives
it — the claim that undo and redo always leave the preview absent fails. -/
theorem C2_counterexample :
    (run [Event.click ⟨0, 0⟩, Event.mousemove ⟨1, 1⟩,
      Event.redoReq]).previewPoint = some ⟨1, 1⟩ ∧
    (run [Event.click ⟨0, 0⟩, Event.mousemove ⟨1, 1⟩,
      Event.redoReq]).previewPoint ≠ none := by
  exact ⟨by decide, by decide⟩

/-- Claim C2 (amended): in every reachable state, an undo or redo that
restores a snapshot clears the preview; an undo request at index 0 is a
no-op but the preview there is necessarily already absent; a redo request
at the newest-snapshot boundary is a complete no-op, so a present preview
survives it. -/
theorem C2_amended (s : AppState) (hreach : Reachable s) :
    (0 < s.historyIndex → s.historyIndex - 1 < s.history.length →
      (undo s).previewPoint = none) ∧
    (s.historyIndex = 0 → undo s = s ∧ s.previewPoint = none) ∧
    (s.historyIndex < s.history.length - 1 →
      (redo s).previewPoint = none) ∧
    (s.history.length - 1 ≤ s.historyIndex → redo s = s) := by
  have hinv := reachable_inv s hreach
  refine ⟨?_, ?_, ?_, ?_⟩
  · intro hi hbound
    obtain ⟨st, hst⟩ : ∃ st, s.history[s.historyIndex - 1]? = some st :=
      ⟨_, List.getElem?_eq_getElem hbound⟩
    rw [undo_inBounds s st hi hst]
  · intro h0
    have hno : ¬ 0 < s.historyIndex := by omega
    refine ⟨by simp [undo, hno], ?_⟩
    cases hpv : s.previewPoint with
    | none => rfl
    | some q =>
      have := hinv.2.2.2.2.2.1 (by simp [hpv])
      omega
  · intro hi
    have hlt : s.historyIndex + 1 < s.history.length := by omega
    have hst : s.history[s.historyIndex + 1]? =
        some (s.history[s.historyIndex + 1]) := List.getElem?_eq_getElem hlt
    simp [redo, hi, hst]
  · intro hge
    have hno : ¬ s.historyIndex < s.history.length - 1 := by omega
    simp [redo, hno]

/-- Witness for the amended claim C2 at a reachable state with a preview
present and the index strictly inside the timeline. -/
theorem C2_amended_witness :
    Reachable (run [Event.click ⟨0, 0⟩, Event.mousemove ⟨1, 1⟩]) ∧
    (undo (run [Event.click ⟨0, 0⟩, Event.mousemove ⟨1, 1⟩])).previewPoint =
      none :=
  ⟨⟨_, rfl⟩,
   (C2_amended _ ⟨_, rfl⟩).1 (by decide) (by decide)⟩

/-- Claim C6 counterexample: after `badTrace`, finishing was performed in
a reachable state whose recorded origin (5) exceeded its history index
(3); the final state has historyIndex = 6 equal to the timeline length 6,
violating the claimed invariant historyIndex < length(snapshots). -/
theorem C6_counterexample :
    (run (badTrace.take 11)).currentPolygon =
      some (⟨[⟨0, 0⟩, ⟨1, 0⟩, ⟨0, 1⟩], false⟩ : Polygon) ∧
    (run (badTrace.take 11)).currentPolygonStartIndex = 5 ∧
    (run (badTrace.take 11)).historyIndex = 3 ∧
    (run badTrace).historyIndex = 6 ∧
    (run badTrace).history.length = 6 := by
  exact ⟨by decide, by decide, by decide, by decide, by decide⟩

/-- Claim C6 (amended): the initial timeline satisfies the bound, and
push, click, undo, redo, clear and pointer moves each preserve
0 ≤ historyIndex < length(snapshots); finish-with-consolidation preserves
it provided the recorded origin does not exceed the history index — but
reachable states violating that proviso exist, and a finish there drives
historyIndex up to the timeline length. -/
theorem C6_amended (s : AppState) (p : Point)
    (hb : s.historyIndex < s.history.length) :
    initialState.historyIndex < initialState.history.length ∧
    (saveToHistory s).historyIndex < (saveToHistory s).history.length ∧
    (handleClick p s).historyIndex < (handleClick p s).history.length ∧
    (undo s).historyIndex < (undo s).history.length ∧
    (redo s).historyIndex < (redo s).history.length ∧
    (clear s).historyIndex < (clear s).history.length ∧
    (handleMouseMove p s).historyIndex <
      (handleMouseMove p s).history.length ∧
    (s.currentPolygonStartIndex ≤ s.historyIndex →
      (handleDoubleClick s).historyIndex <
        (handleDoubleClick s).history.length) := by
  refine ⟨by decide, saveToHistory_bound s hb, ?_, ?_, ?_, ?_, ?_, ?_⟩
  · cases hc : s.currentPolygon with
    | none =>
      have heq : handleClick p s =
          saveToHistory
            { s with currentPolygon := some (Polygon.addVertex ⟨[], false⟩ p)
                     currentPolygonStartIndex := s.historyIndex } := by
        simp [handleClick, hc]
      rw [heq]
      exact saveToHistory_bound _ hb
    | some c =>
      have heq : handleClick p s =
          saveToHistory { s with currentPolygon := some (c.addVertex p) } := by
        simp [handleClick, hc]
      rw [heq]
      exact saveToHistory_bound _ hb
  · by_cases hi : 0 < s.historyIndex
    · have hbound : s.historyIndex - 1 < s.history.length := by omega
      obtain ⟨st, hst⟩ : ∃ st, s.history[s.historyIndex - 1]? = some st :=
        ⟨_, List.getElem?_eq_getElem hbound⟩
      rw [undo_inBounds s st hi hst]
      exact hbound
    · have heq : undo s = s := by simp [undo, hi]
      rw [heq]
      exact hb
  · by_cases hi : s.historyIndex < s.history.length - 1
    · have hlt : s.historyIndex + 1 < s.history.length := by omega
      have hst : s.history[s.historyIndex + 1]? =
          some (s.history[s.historyIndex + 1]) := List.getElem?_eq_getElem hlt
      have heq : redo s =
          { s with historyIndex := s.historyIndex + 1
                   polygons := (s.history[s.historyIndex + 1]).polygons
                   currentPolygon :=
                     (s.history[s.historyIndex + 1]).currentPolygon
                   previewPoint := none } := by
        simp [redo, hi, hst, map_clone_eq, option_map_clone_eq]
      rw [heq]
      exact hlt
    · have heq : redo s = s := by simp [redo, hi]
      rw [heq]
      exact hb
  · exact saveToHistory_bound _ hb
  · cases hc : s.currentPolygon with
    | none =>
      have heq : handleMouseMove p s = s := by simp [handleMouseMove, hc]
      rw [heq]
      exact hb
    | some c =>
      by_cases h0 : 0 < c.vertices.length
      · have heq : handleMouseMove p s = { s with previewPoint := some p } := by
          simp [handleMouseMove, hc, h0]
        rw [heq]
        exact hb
      · have heq : handleMouseMove p s = s := by simp [handleMouseMove, hc, h0]
        rw [heq]
        exact hb
  · intro hstart
    cases hc : s.currentPolygon with
    | none =>
      have heq : handleDoubleClick s = s := by simp [handleDoubleClick, hc]
      rw [heq]
      exact hb
    | some c =>
      by_cases hlen : 3 ≤ c.vertices.length
      · have heq : handleDoubleClick s =
            saveToHistory
              { s with polygons := s.polygons ++ [c.finish]
                       history :=
                         s.history.take (s.currentPolygonStartIndex + 1)
                       historyIndex := s.currentPolygonStartIndex
                       currentPolygon := none
                       previewPoint := none } := by
          simp [handleDoubleClick, hc, hlen]
        rw [heq]
        refine saveToHistory_bound _ ?_
        show s.currentPolygonStartIndex <
          (s.history.take (s.currentPolygonStartIndex + 1)).length
        simp [List.length_take]
        omega
      · have heq : handleDoubleClick s = s := by
          simp [handleDoubleClick, hc, hlen]
        rw [heq]
        exact hb

/-- Witness for the amended claim C6 at the initial state. -/
theorem C6_amended_witness :
    initialState.historyIndex < initialState.history.length ∧
    (undo initialState).historyIndex < (undo initialState).history.length ∧
    (clear initialState).historyIndex < (clear initialState).history.length :=
  ⟨by decide,
   (C6_amended initialState ⟨0, 0⟩ (by decide)).2.2.2.1,
   (C6_amended initialState ⟨0, 0⟩ (by decide)).2.2.2.2.2.1⟩

/-- Claim C10 (confirmed): clear always truncates at the index, appends
the empty snapshot and increments the index, even in an already empty
idle session; there, undo is then enabled and one undo restores the same
empty content. -/
theorem C10_clear_unconditional (s : AppState) (hreach : Reachable s) :
    (clear s).history =
      s.history.take (s.historyIndex + 1) ++ [⟨[], none⟩] ∧
    (clear s).historyIndex = s.historyIndex + 1 ∧
    canUndo (clear s) = true ∧
    (s.polygons = [] → s.currentPolygon = none →
      (undo (clear s)).polygons = [] ∧
      (undo (clear s)).currentPolygon = none) := by
  have hinv := reachable_inv s hreach
  have hclear : clear s =
      { s with polygons := []
               currentPolygon := none
               previewPoint := none
               history := s.history.take (s.historyIndex + 1) ++ [⟨[], none⟩]
               historyIndex := s.historyIndex + 1 } := by
    show saveToHistory _ = _
    rw [saveToHistory_eq]
  refine ⟨by rw [hclear], by rw [hclear], ?_, ?_⟩
  · rw [hclear]
    show decide (0 < s.historyIndex + 1) = true
    simp
  · intro hpg hcur
    rw [hclear]
    by_cases hcase : s.historyIndex < s.history.length
    · have hA : (s.history.take (s.historyIndex + 1)).length =
          s.historyIndex + 1 := by
        simp [List.length_take]
        omega
      have hsync := hinv.2.1 hcase
      rw [hpg, hcur] at hsync
      have hst : (s.history.take (s.historyIndex + 1) ++
          [(⟨[], none⟩ : Snapshot)])[s.historyIndex]? =
          some ⟨[], none⟩ := by
        rw [List.getElem?_append_left (by omega),
            List.getElem?_take_of_lt (by omega)]
        exact hsync
      rw [undo_inBounds _ ⟨[], none⟩ (Nat.succ_pos _) hst]
      exact ⟨rfl, rfl⟩
    · have hA : s.history.take (s.historyIndex + 1) = s.history :=
        List.take_of_length_le (by omega)
      by_cases hcase2 : s.historyIndex = s.history.length
      · have hst : (s.history.take (s.historyIndex + 1) ++
            [(⟨[], none⟩ : Snapshot)])[s.historyIndex]? =
            some ⟨[], none⟩ := by
          rw [hA, List.getElem?_append_right (by omega)]
          simp [hcase2]
        rw [undo_inBounds _ ⟨[], none⟩ (Nat.succ_pos _) hst]
        exact ⟨rfl, rfl⟩
      · have hst : (s.history.take (s.historyIndex + 1) ++
            [(⟨[], none⟩ : Snapshot)])[s.historyIndex]? = none := by
          rw [List.getElem?_eq_none_iff]
          simp [hA]
          omega
        rw [undo_outOfBounds _ (Nat.succ_pos _) hst]
        exact ⟨rfl, rfl⟩

/-- Witness for claim C10 at the initial (empty, idle) state. -/
theorem C10_witness :
    Reachable initialState ∧
    canUndo (clear initialState) = true ∧
    (undo (clear initialState)).polygons = [] ∧
    (undo (clear initialState)).currentPolygon = none :=
  ⟨⟨[], rfl⟩,
   (C10_clear_unconditional initialState ⟨[], rfl⟩).2.2.1,
   ((C10_clear_unconditional initialState ⟨[], rfl⟩).2.2.2 rfl rfl).1,
   ((C10_clear_unconditional initialState ⟨[], rfl⟩).2.2.2 rfl rfl).2⟩

/-- Claim C4 (confirmed): from any reachable state whose index sits at the
newest snapshot, k undos followed by k redos restore exactly the original
finished list and in-progress polygon. -/
theorem C4_undo_redo_symmetry (s : AppState) (k : Nat)
    (hreach : Reachable s)
    (hnew : s.historyIndex = s.history.length - 1)
    (hk : k ≤ s.historyIndex) :
    (runFrom (runFrom s (List.replicate k Event.undoReq))
      (List.replicate k Event.redoReq)).polygons = s.polygons ∧
    (runFrom (runFrom s (List.replicate k Event.undoReq))
      (List.replicate k Event.redoReq)).currentPolygon = s.currentPolygon := by
  have hinv := reachable_inv s hreach
  have h1 : 1 ≤ s.history.length := hinv.1
  have hb : s.historyIndex < s.history.length := by omega
  obtain ⟨uh, ui, _⟩ := runFrom_undos k s hinv hk hb
  have hinvu : Inv (runFrom s (List.replicate k Event.undoReq)) :=
    inv_runFrom _ s hinv
  have hbu : (runFrom s (List.replicate k Event.undoReq)).historyIndex + k <
      (runFrom s (List.replicate k Event.undoReq)).history.length := by
    rw [ui, uh]
    omega
  obtain ⟨_, _, rs⟩ := runFrom_redos k _ hinvu hbu
  rw [uh, ui] at rs
  have hidx : s.historyIndex - k + k = s.historyIndex := by omega
  rw [hidx] at rs
  have hsync := hinv.2.1 hb
  rw [hsync] at rs
  simp only [Option.some.injEq, Snapshot.mk.injEq] at rs
  exact ⟨rs.1.symm, rs.2.symm⟩

/-- Witness for claim C4: one undo then one redo after a single click. -/
theorem C4_witness :
    Reachable (run [Event.click ⟨0, 0⟩]) ∧
    (run [Event.click ⟨0, 0⟩]).historyIndex =
      (run [Event.click ⟨0, 0⟩]).history.length - 1 ∧
    1 ≤ (run [Event.click ⟨0, 0⟩]).historyIndex ∧
    (runFrom (runFrom (run [Event.click ⟨0, 0⟩])
        (List.replicate 1 Event.undoReq))
      (List.replicate 1 Event.redoReq)).currentPolygon =
      (run [Event.click ⟨0, 0⟩]).currentPolygon :=
  ⟨⟨_, rfl⟩, by decide, by decide,
   (C4_undo_redo_symmetry (run [Event.click ⟨0, 0⟩]) 1 ⟨_, rfl⟩
     (by decide) (by decide)).2⟩

/-- Claim C1 counterexample: in the corrupted idle state after `badTrace`
(index 6 = timeline length 6), a fresh triangle is started, given three
vertices and finished; the single following undo restores the snapshot
recorded at the first of the three clicks, leaving a one-vertex
in-progress polygon instead of the pre-start state. -/
theorem C1_counterexample :
    (run badTrace).currentPolygon = none ∧
    (run c1Trace).currentPolygon = none ∧
    (run c1Trace).polygons =
      [⟨[⟨0, 0⟩, ⟨1, 0⟩, ⟨0, 1⟩], true⟩, ⟨[⟨7, 7⟩, ⟨8, 7⟩, ⟨7, 8⟩], true⟩] ∧
    (run (c1Trace ++ [Event.undoReq])).currentPolygon =
      some (⟨[⟨7, 7⟩], false⟩ : Polygon) := by
  exact ⟨by decide, by decide, by decide, by decide⟩

/-- Claim C1 (amended): in every reachable idle state additionally
satisfying historyIndex < length(snapshots) — which every session without
a prior stale-origin finish maintains — starting a shape at history index
o, adding k ≥ 3 vertices and finishing truncates the timeline to [0, o],
appends the single post-finish snapshot with historyIndex = o + 1, and a
single undo then restores exactly the pre-start state: no in-progress
polygon, the finished list as before, index back at o. -/
theorem C1_amended (s : AppState) (ps : List Point)
    (hreach : Reachable s)
    (hb : s.historyIndex < s.history.length)
    (hc : s.currentPolygon = none)
    (hk : 3 ≤ ps.length) :
    (runFrom s (ps.map Event.click)).currentPolygonStartIndex =
      s.historyIndex ∧
    (handleDoubleClick (runFrom s (ps.map Event.click))).history =
      s.history.take (s.historyIndex + 1) ++
        [⟨s.polygons ++ [⟨ps, true⟩], none⟩] ∧
    (handleDoubleClick (runFrom s (ps.map Event.click))).historyIndex =
      s.historyIndex + 1 ∧
    (undo (handleDoubleClick (runFrom s (ps.map Event.click)))).currentPolygon
      = none ∧
    (undo (handleDoubleClick (runFrom s (ps.map Event.click)))).polygons =
      s.polygons ∧
    (undo (handleDoubleClick (runFrom s (ps.map Event.click)))).historyIndex =
      s.historyIndex := by
  have hinv := reachable_inv s hreach
  have hsync := hinv.2.1 hb
  rw [hc] at hsync
  obtain ⟨q, qs, rfl⟩ : ∃ q qs, ps = q :: qs := by
    cases ps with
    | nil => simp at hk
    | cons a l => exact ⟨a, l, rfl⟩
  obtain ⟨pg, cp, pv, h, i, st⟩ := s
  simp only at hc hb hsync
  subst hc
  have hA : (h.take (i + 1)).length = i + 1 := by
    rw [List.length_take]
    omega
  have hmid : runFrom ⟨pg, none, pv, h, i, st⟩ ((q :: qs).map Event.click) =
      ⟨pg, some ⟨q :: qs, false⟩, pv,
        h.take (i + 1) ++
          (⟨pg, some ⟨[q], false⟩⟩ :: snapTrail pg ⟨[q], false⟩ qs),
        i + 1 + qs.length, i⟩ := by
    rw [runFrom_clicks_fresh _ q qs rfl hb]
  have hdbl : handleDoubleClick
      (⟨pg, some ⟨q :: qs, false⟩, pv,
        h.take (i + 1) ++
          (⟨pg, some ⟨[q], false⟩⟩ :: snapTrail pg ⟨[q], false⟩ qs),
        i + 1 + qs.length, i⟩ : AppState) =
      ⟨pg ++ [⟨q :: qs, true⟩], none, none,
        h.take (i + 1) ++ [⟨pg ++ [⟨q :: qs, true⟩], none⟩], i + 1, i⟩ := by
    have hk2 : 2 ≤ qs.length := by
      simp at hk
      omega
    simp [handleDoubleClick, hk2, saveToHistory_eq, Polygon.finish,
      List.take_left' hA, List.take_of_length_le (le_of_eq hA)]
  have hget : ((h.take (i + 1)) ++
      [(⟨pg ++ [⟨q :: qs, true⟩], none⟩ : Snapshot)])[i]? =
      some ⟨pg, none⟩ := by
    rw [List.getElem?_append_left (by rw [hA]; omega),
        List.getElem?_take_of_lt (Nat.lt_succ_self i)]
    exact hsync
  have hundo : undo (⟨pg ++ [⟨q :: qs, true⟩], none, none,
      h.take (i + 1) ++ [⟨pg ++ [⟨q :: qs, true⟩], none⟩],
      i + 1, i⟩ : AppState) =
      ⟨pg, none, none,
        h.take (i + 1) ++ [⟨pg ++ [⟨q :: qs, true⟩], none⟩],
        i + 1 - 1, i⟩ := by
    rw [undo_inBounds _ ⟨pg, none⟩ (Nat.succ_pos i) hget]
  rw [hmid, hdbl, hundo]
  exact ⟨rfl, rfl, rfl, rfl, rfl, rfl⟩

/-- Witness for the amended claim C1: a triangle drawn and finished from
the initial state, then undone. -/
theorem C1_amended_witness :
    Reachable initialState ∧
    initialState.historyIndex < initialState.history.length ∧
    initialState.currentPolygon = none ∧
    (undo (handleDoubleClick (runFrom initialState
      (([⟨1, 1⟩, ⟨2, 1⟩, ⟨1, 2⟩] : List Point).map
        Event.click)))).currentPolygon = none ∧
    (undo (handleDoubleClick (runFrom initialState
      (([⟨1, 1⟩, ⟨2, 1⟩, ⟨1, 2⟩] : List Point).map
        Event.click)))).polygons = initialState.polygons :=
  ⟨⟨[], rfl⟩, by decide, rfl,
   (C1_amended initialState [⟨1, 1⟩, ⟨2, 1⟩, ⟨1, 2⟩] ⟨[], rfl⟩
     (by decide) rfl (by decide)).2.2.2.1,
   (C1_amended initialState [⟨1, 1⟩, ⟨2, 1⟩, ⟨1, 2⟩] ⟨[], rfl⟩
     (by decide) rfl (by decide)).2.2.2.2.1⟩

/-- Claim C9 counterexample: in the corrupted idle state after `badTrace`,
three vertices are clicked onto a new polygon; the first undo leaves the
polygon with all three vertices, not two, because the first click
snapshot was stored at the same index the session then occupies. -/
theorem C9_counterexample :
    (run badTrace).currentPolygon = none ∧
    (run (badTrace ++ [Event.click ⟨7, 7⟩, Event.click ⟨8, 7⟩,
      Event.click ⟨7, 8⟩])).currentPolygon =
      some (⟨[⟨7, 7⟩, ⟨8, 7⟩, ⟨7, 8⟩], false⟩ : Polygon) ∧
    (run (badTrace ++ [Event.click ⟨7, 7⟩, Event.click ⟨8, 7⟩,
      Event.click ⟨7, 8⟩, Event.undoReq])).currentPolygon =
      some (⟨[⟨7, 7⟩, ⟨8, 7⟩, ⟨7, 8⟩], false⟩ : Polygon) := by
  exact ⟨by decide, by decide, by decide⟩

/-- Claim C9 (amended): from every reachable idle state additionally
satisfying historyIndex < length(snapshots), after clicking three
vertices the first undo leaves exactly two vertices in the open polygon,
the second exactly one, and the third restores the idle state with the
finished list unchanged. -/
theorem C9_amended (s : AppState) (p1 p2 p3 : Point)
    (hreach : Reachable s)
    (hb : s.historyIndex < s.history.length)
    (hc : s.currentPolygon = none) :
    (undo (runFrom s ([p1, p2, p3].map Event.click))).currentPolygon =
      some (⟨[p1, p2], false⟩ : Polygon) ∧
    (undo (undo (runFrom s ([p1, p2, p3].map Event.click)))).currentPolygon =
      some (⟨[p1], false⟩ : Polygon) ∧
    (undo (undo (undo (runFrom s
      ([p1, p2, p3].map Event.click))))).currentPolygon = none ∧
    (undo (undo (undo (runFrom s
      ([p1, p2, p3].map Event.click))))).polygons = s.polygons := by
  have hinv := reachable_inv s hreach
  have hsync := hinv.2.1 hb
  rw [hc] at hsync
  obtain ⟨pg, cp, pv, h, i, st⟩ := s
  simp only at hc hb hsync
  subst hc
  have hA : (h.take (i + 1)).length = i + 1 := by
    rw [List.length_take]
    omega
  have hmid : runFrom ⟨pg, none, pv, h, i, st⟩ ([p1, p2, p3].map Event.click) =
      ⟨pg, some ⟨[p1, p2, p3], false⟩, pv,
        h.take (i + 1) ++
          [⟨pg, some ⟨[p1], false⟩⟩, ⟨pg, some ⟨[p1, p2], false⟩⟩,
           ⟨pg, some ⟨[p1, p2, p3], false⟩⟩],
        i + 1 + 2, i⟩ := by
    rw [runFrom_clicks_fresh _ p1 [p2, p3] rfl hb]
    rfl
  have hget1 : ((h.take (i + 1)) ++
      [(⟨pg, some ⟨[p1], false⟩⟩ : Snapshot),
       ⟨pg, some ⟨[p1, p2], false⟩⟩,
       ⟨pg, some ⟨[p1, p2, p3], false⟩⟩])[i + 1 + 2 - 1]? =
      some ⟨pg, some ⟨[p1, p2], false⟩⟩ := by
    rw [List.getElem?_append_right (by rw [hA]; omega), hA,
        show i + 1 + 2 - 1 - (i + 1) = 1 from by omega]
    rfl
  have hu1 : undo (⟨pg, some ⟨[p1, p2, p3], false⟩, pv,
      h.take (i + 1) ++
        [⟨pg, some ⟨[p1], false⟩⟩, ⟨pg, some ⟨[p1, p2], false⟩⟩,
         ⟨pg, some ⟨[p1, p2, p3], false⟩⟩],
      i + 1 + 2, i⟩ : AppState) =
      ⟨pg, some ⟨[p1, p2], false⟩, none,
        h.take (i + 1) ++
          [⟨pg, some ⟨[p1], false⟩⟩, ⟨pg, some ⟨[p1, p2], false⟩⟩,
           ⟨pg, some ⟨[p1, p2, p3], false⟩⟩],
        i + 1 + 2 - 1, i⟩ := by
    rw [undo_inBounds _ ⟨pg, some ⟨[p1, p2], false⟩⟩
      (show 0 < i + 1 + 2 by omega) hget1]
  have hget2 : ((h.take (i + 1)) ++
      [(⟨pg, some ⟨[p1], false⟩⟩ : Snapshot),
       ⟨pg, some ⟨[p1, p2], false⟩⟩,
       ⟨pg, some ⟨[p1, p2, p3], false⟩⟩])[i + 1 + 2 - 1 - 1]? =
      some ⟨pg, some ⟨[p1], false⟩⟩ := by
    rw [List.getElem?_append_right (by rw [hA]; omega), hA,
        show i + 1 + 2 - 1 - 1 - (i + 1) = 0 from by omega]
    rfl
  have hu2 : undo (⟨pg, some ⟨[p1, p2], false⟩, none,
      h.take (i + 1) ++
        [⟨pg, some ⟨[p1], false⟩⟩, ⟨pg, some ⟨[p1, p2], false⟩⟩,
         ⟨pg, some ⟨[p1, p2, p3], false⟩⟩],
      i + 1 + 2 - 1, i⟩ : AppState) =
      ⟨pg, some ⟨[p1], false⟩, none,
        h.take (i + 1) ++
          [⟨pg, some ⟨[p1], false⟩⟩, ⟨pg, some ⟨[p1, p2], false⟩⟩,
           ⟨pg, some ⟨[p1, p2, p3], false⟩⟩],
        i + 1 + 2 - 1 - 1, i⟩ := by
    rw [undo_inBounds _ ⟨pg, some ⟨[p1], false⟩⟩
      (show 0 < i + 1 + 2 - 1 by omega) hget2]
  have hget3 : ((h.take (i + 1)) ++
      [(⟨pg, some ⟨[p1], false⟩⟩ : Snapshot),
       ⟨pg, some ⟨[p1, p2], false⟩⟩,
       ⟨pg, some ⟨[p1, p2, p3], false⟩⟩])[i + 1 + 2 - 1 - 1 - 1]? =
      some ⟨pg, none⟩ := by
    rw [show i + 1 + 2 - 1 - 1 - 1 = i from by omega,
        List.getElem?_append_left (by rw [hA]; omega),
        List.getElem?_take_of_lt (Nat.lt_succ_self i)]
    exact hsync
  have hu3 : undo (⟨pg, some ⟨[p1], false⟩, none,
      h.take (i + 1) ++
        [⟨pg, some ⟨[p1], false⟩⟩, ⟨pg, some ⟨[p1, p2], false⟩⟩,
         ⟨pg, some ⟨[p1, p2, p3], false⟩⟩],
      i + 1 + 2 - 1 - 1, i⟩ : AppState) =
      ⟨pg, none, none,
        h.take (i + 1) ++
          [⟨pg, some ⟨[p1], false⟩⟩, ⟨pg, some ⟨[p1, p2], false⟩⟩,
           ⟨pg, some ⟨[p1, p2, p3], false⟩⟩],
        i + 1 + 2 - 1 - 1 - 1, i⟩ := by
    rw [undo_inBounds _ ⟨pg, none⟩
      (show 0 < i + 1 + 2 - 1 - 1 by omega) hget3]
  rw [hmid, hu1, hu2, hu3]
  exact ⟨rfl, rfl, rfl, rfl⟩

/-- Witness for the amended claim C9: three clicks and three undos from
the initial state. -/
theorem C9_amended_witness :
    Reachable initialState ∧
    initialState.historyIndex < initialState.history.length ∧
    (undo (runFrom initialState
      (([⟨1, 1⟩, ⟨2, 1⟩, ⟨1, 2⟩] : List Point).map
        Event.click))).currentPolygon =
      some (⟨[⟨1, 1⟩, ⟨2, 1⟩], false⟩ : Polygon) ∧
    (undo (undo (undo (runFrom initialState
      (([⟨1, 1⟩, ⟨2, 1⟩, ⟨1, 2⟩] : List Point).map
        Event.click))))).currentPolygon = none :=
  ⟨⟨[], rfl⟩, by decide,
   (C9_amended initialState ⟨1, 1⟩ ⟨2, 1⟩ ⟨1, 2⟩ ⟨[], rfl⟩
     (by decide) rfl).1,
   (C9_amended initialState ⟨1, 1⟩ ⟨2, 1⟩ ⟨1, 2⟩ ⟨[], rfl⟩
     (by decide) rfl).2.2.1⟩

end PolySketch
